import Mathlib

/-!
Verification of the tic-tac-toe core of this repository: the board and
outcome detection (tic_tac_toe.py, class Board), the game controller
(tic_tac_toe.py, class Game) and the recursive minimax search
(game_ai.py, function minimax).

The 3x3 numpy grid is embedded as a list of nine natural numbers in
row-major order (0 = empty, 1 = X, 2 = O).  The in-place mutation of the
grid performed by minimax (the Python code aliases the array and undoes
every tentative mark through the last_move keyword argument) is embedded
by threading the grid value through the recursion, so that the grid
returned by each call is exactly the array object's content when the
Python call returns.  The unbounded Python recursion is embedded with a
fuel parameter; fuel 9 is shown sufficient for every 3x3 grid.
-/

namespace TicTacToe

/-- A board coordinate: (row, column). -/
abbrev Pos := Nat × Nat

/-- Row-major flat index of a coordinate, as numpy lays out the (3,3) array. -/
def idx (m : Pos) : Nat := 3 * m.1 + m.2

/-- Read a cell of the grid (0 when out of range, matching no claim: all
claims restrict to in-range coordinates on length-9 grids). -/
def getCell (g : List Nat) (m : Pos) : Nat := g.getD (idx m) 0

/-- Write a cell of the grid. -/
def setCell (g : List Nat) (m : Pos) (v : Nat) : List Nat := g.set (idx m) v

/-- The nine coordinates in row-major scan order, the order in which
numpy.where enumerates indices of a C-ordered (3,3) array. -/
def allPositions : List Pos :=
  [(0,0),(0,1),(0,2),(1,0),(1,1),(1,2),(2,0),(2,1),(2,2)]

/-- Coordinates of the empty cells in row-major order: the am_indices list
built from numpy.where(board == EMPTY) in minimax. -/
def emptyCells (g : List Nat) : List Pos :=
  allPositions.filter (fun m => getCell g m == 0)

/-- Number of empty cells. -/
def countEmpty (g : List Nat) : Nat := (emptyCells g).length

/-- The opponent of a player, as computed at the top of minimax:
PLAYER_X if player == PLAYER_O else PLAYER_O. -/
def oppOf (p : Nat) : Nat := if p = 2 then 1 else 2

/-- The 8 candidate lines in the order produced by Board.get_rows_grid:
the three rows, the three columns (rows of the transpose), the main
diagonal, and the diagonal of the horizontally flipped grid. -/
def linesOf (g : List Nat) : List (List Nat) :=
  [ [getCell g (0,0), getCell g (0,1), getCell g (0,2)],
    [getCell g (1,0), getCell g (1,1), getCell g (1,2)],
    [getCell g (2,0), getCell g (2,1), getCell g (2,2)],
    [getCell g (0,0), getCell g (1,0), getCell g (2,0)],
    [getCell g (0,1), getCell g (1,1), getCell g (2,1)],
    [getCell g (0,2), getCell g (1,2), getCell g (2,2)],
    [getCell g (0,0), getCell g (1,1), getCell g (2,2)],
    [getCell g (0,2), getCell g (1,1), getCell g (2,0)] ]

/-- The body of the scan loop of Board.check_win_grid on one line:
X is checked before O on each line. -/
def lineWinner (row : List Nat) : Option Nat :=
  if row.all (fun c => c == 1) then some 1
  else if row.all (fun c => c == 2) then some 2
  else none

/-- Board.check_win_grid: the first line fully owned by one symbol decides
the winner; a full grid with no such line is stale (0); otherwise the grid
is unresolved (None). -/
def winnerOf (g : List Nat) : Option Nat :=
  match (linesOf g).findSome? lineWinner with
  | some w => some w
  | none => if g.all (fun c => c != 0) then some 0 else none

/-- The update of the (score, move) pair in the minimax loop: the running
best is replaced exactly when the new score is strictly greater (the
initial float minus-infinity score together with the move sentinel -1 is
embedded as none). -/
def isBetter (s : Int) (best : Option (Int × Pos)) : Bool :=
  match best with
  | none => true
  | some bs => decide (bs.1 < s)

/-- One iteration of the move loop in minimax: place the mark of p on the
threaded grid, run the recursive evaluation rec (which undoes the mark),
negate the returned score and update the running best. -/
def stepWith (rec : List Nat → Nat → Pos → Option (Int × List Nat)) (p : Nat)
    (acc : Option (Option (Int × Pos) × List Nat)) (m : Pos) :
    Option (Option (Int × Pos) × List Nat) :=
  match acc with
  | none => none
  | some (best, gc) =>
    match rec (setCell gc m p) (oppOf p) m with
    | none => none
    | some (s, g2) =>
      some ((if isBetter (-s) best then some (-s, m) else best), g2)

/-- The tail of a recursive minimax call after the move loop: with the
last_move keyword present, the sentinel branch restores last_move and
returns STALE = 0, and otherwise the restore succeeds and the score alone
is returned.  The grid component is the content of the mutated array. -/
def loopRun (rec : List Nat → Nat → Pos → Option (Int × List Nat))
    (g : List Nat) (p : Nat) (lm : Pos) : Option (Int × List Nat) :=
  match (emptyCells g).foldl (stepWith rec p) (some (none, g)) with
  | none => none
  | some (none, g2) => some (0, setCell g2 lm 0)
  | some (some sm, g2) => some (sm.1, setCell g2 lm 0)

/-- A recursive call of minimax, i.e. a call carrying the last_move keyword
argument.  Returns the score together with the grid content at return time;
none is the fuel-exhaustion artifact of the embedding (shown unreachable
for fuel above the number of empty cells). -/
def minimaxAux : Nat → List Nat → Nat → Pos → Option (Int × List Nat)
  | 0, _, _, _ => none
  | f + 1, g, p, lm =>
    match winnerOf g with
    | some w =>
      if w = p then some (1, setCell g lm 0)
      else if w = oppOf p then some ((-1 : Int), setCell g lm 0)
      else loopRun (fun gc q mv => minimaxAux f gc q mv) g p lm
    | none => loopRun (fun gc q mv => minimaxAux f gc q mv) g p lm

/-- A top-level call of minimax (no last_move keyword).  The KeyError
raised by board[kwargs[...]] on the winner and sentinel paths is embedded
as Except.error together with the grid content at raise time; on the
normal path the KeyError is caught and the (score, move) pair is returned.
The outer none is the same fuel artifact as in minimaxAux. -/
def minimaxTop (g : List Nat) (p : Nat) :
    Option (Except Unit (Int × Pos) × List Nat) :=
  match winnerOf g with
  | some w =>
    if w = p then some (Except.error (), g)
    else if w = oppOf p then some (Except.error (), g)
    else
      match (emptyCells g).foldl (stepWith (fun gc q mv => minimaxAux 9 gc q mv) p) (some (none, g)) with
      | none => none
      | some (none, g2) => some (Except.error (), g2)
      | some (some sm, g2) => some (Except.ok sm, g2)
  | none =>
    match (emptyCells g).foldl (stepWith (fun gc q mv => minimaxAux 9 gc q mv) p) (some (none, g)) with
    | none => none
    | some (none, g2) => some (Except.error (), g2)
    | some (some sm, g2) => some (Except.ok sm, g2)

/-- Truthiness of a Python int. -/
def pyTruthyInt (v : Int) : Bool := v != 0

/-- The condition of the player assertion in minimax, which Python parses
as (player is PLAYER_X) or PLAYER_O: the or returns its first truthy
operand, so the assert passes when the comparison holds or the literal 2
is truthy. -/
def minimaxAssertCond (player : Int) : Bool :=
  (player == 1) || pyTruthyInt 2

/-- The state of a Game object: the grid, the winner attribute (None while
unresolved), whose turn it is, and the symbol bound to the automated
player. -/
structure GameState where
  spaces : List Nat
  winner : Option Nat
  turn : Nat
  opponent : Nat
deriving DecidableEq, Repr

/-- Board/Game construction: empty grid, no winner, X to move. -/
def initGame (opponent : Nat) : GameState :=
  { spaces := List.replicate 9 0, winner := none, turn := 1, opponent := opponent }

/-- Board.check_win: a no-op once the winner attribute is set, otherwise
runs the same line scan as check_win_grid and records its result (leaving
the winner at None when the scan resolves nothing). -/
def check_win (s : GameState) : GameState :=
  match s.winner with
  | some _ => s
  | none =>
    match winnerOf s.spaces with
    | some w => { s with winner := some w }
    | none => s

/-- Game.end_turn: swap the turn to the other player. -/
def end_turn (s : GameState) : GameState :=
  { s with turn := if s.turn = 1 then 2 else 1 }

/-- Game.place_marker: a silent no-op when the game is finished or the
target cell is occupied; otherwise write the mark of the player whose turn
it is, swap the turn and re-run the win check. -/
def place_marker (s : GameState) (m : Pos) : GameState :=
  match s.winner with
  | some _ => s
  | none =>
    if getCell s.spaces m == 0 then
      check_win (end_turn { s with spaces := setCell s.spaces m s.turn })
    else s

/-- Game.ai_place_marker: a no-op when finished, otherwise ask minimax for
the automated player's move on the live grid and place it; none embeds the
crash paths (an uncaught KeyError, or the fuel artifact). -/
def ai_place_marker (s : GameState) : Option GameState :=
  match s.winner with
  | some _ => some s
  | none =>
    match minimaxTop s.spaces s.opponent with
    | some (Except.ok sm, g2) => some (place_marker { s with spaces := g2 } sm.2)
    | _ => none

/-- The pure selection underlying the move loop of minimax: fold over the
candidate (score, move) pairs, keeping the running best and replacing it
exactly on strict improvement. -/
def selectBest : Option (Int × Pos) → List (Int × Pos) → Option (Int × Pos)
  | best, [] => best
  | best, sm :: rest => selectBest (if isBetter sm.1 best then some sm else best) rest

/-- Spec-side valuation of a terminal outcome w from the perspective of
player r: plus one for a win of r, minus one for a win of the opponent,
zero for a stale outcome. -/
def scoreOf (w r : Nat) : Int :=
  if w = r then 1 else if w = oppOf r then -1 else 0

/-- Spec-side game semantics (section 4.2 of the spec), depth-indexed:
specForcesB n g r q k holds when, with q to move on g, player r can
guarantee that the final outcome is worth at least k from the perspective
of r, assuming the game lasts at most n further plies.  On a terminal grid
the outcome is already fixed; otherwise the player to move picks a move
(when it is r) or every move must work (when it is the adversary of r). -/
def specForcesB : Nat → List Nat → Nat → Nat → Int → Bool
  | 0, g, r, _, k =>
    match winnerOf g with
    | some w => decide (k ≤ scoreOf w r)
    | none => false
  | n + 1, g, r, q, k =>
    match winnerOf g with
    | some w => decide (k ≤ scoreOf w r)
    | none =>
      if q = r then
        (emptyCells g).any (fun m => specForcesB n (setCell g m q) r (oppOf q) k)
      else
        (emptyCells g).all (fun m => specForcesB n (setCell g m q) r (oppOf q) k)

/-- Spec-side forcing predicate at the natural depth: the number of empty
cells bounds the number of remaining plies. -/
@[reducible] def specForces (g : List Nat) (r q : Nat) (k : Int) : Prop :=
  specForcesB (countEmpty g) g r q k = true

/-- The score a recursive minimax call reports for grid g and player p
(fuel 10 covers every 3x3 grid; the last-move argument only affects the
grid component). -/
def auxScore (g : List Nat) (p : Nat) : Int :=
  match minimaxAux 10 g p (0, 0) with
  | some sg => sg.1
  | none => 0

/-- The negated score of the child position reached by playing p at m,
i.e. the candidate score minimax assigns to the move m. -/
def childNeg (g : List Nat) (p : Nat) (m : Pos) : Int :=
  -(auxScore (setCell g m p) (oppOf p))


/-- The controller invariant tying the turn to the mark counts. -/
def turnCountInv (s : GameState) : Prop :=
  s.spaces.length = 9 ∧
    ((s.turn = 1 ∧ s.spaces.count 1 = s.spaces.count 2) ∨
      (s.turn = 2 ∧ s.spaces.count 1 = s.spaces.count 2 + 1))

/-- Folding place_marker over a list of moves from the initial state. -/
def applyMoves (opp0 : Nat) (ps : List Pos) : GameState :=
  ps.foldl place_marker (initGame opp0)

/-- Spec-side line predicate: some one of the 8 lines is entirely filled
with the symbol s. -/
def hasLineB (g : List Nat) (s : Nat) : Bool :=
  (linesOf g).any (fun row => row.all (fun c => c == s))

/-- Spec-side fullness predicate: every cell is non-empty. -/
def allFullB (g : List Nat) : Bool :=
  allPositions.all (fun m => getCell g m != 0)

/-! ### Basic facts about coordinates and cells -/

theorem allPositions_nodup : allPositions.Nodup := by decide

theorem idx_lt_of_mem : ∀ m ∈ allPositions, idx m < 9 := by decide

theorem idx_inj : ∀ m ∈ allPositions, ∀ m' ∈ allPositions, idx m = idx m' → m = m' := by decide

theorem mem_allPositions {a b : Nat} (ha : a < 3) (hb : b < 3) : (a, b) ∈ allPositions := by
  interval_cases a <;> interval_cases b <;> decide

theorem length_setCell (g : List Nat) (m : Pos) (v : Nat) :
    (setCell g m v).length = g.length := List.length_set g (idx m) v

theorem getCell_setCell_self {g : List Nat} {m : Pos} (h : idx m < g.length) (v : Nat) :
    getCell (setCell g m v) m = v := by
  unfold getCell setCell
  rw [List.getD_eq_getElem?_getD, List.getElem?_set_self h, Option.getD_some]

theorem getCell_setCell_ne {g : List Nat} {m m' : Pos} (v : Nat) (h : idx m ≠ idx m') :
    getCell (setCell g m v) m' = getCell g m' := by
  unfold getCell setCell
  rw [List.getD_eq_getElem?_getD, List.getElem?_set_ne h, ← List.getD_eq_getElem?_getD]

theorem setCell_setCell (g : List Nat) (m : Pos) (v w : Nat) :
    setCell (setCell g m v) m w = setCell g m w := List.set_set v w g (idx m)

theorem set_zero_of_getD_zero : ∀ (g : List Nat) (i : Nat), g.getD i 0 = 0 → g.set i 0 = g
  | [], _, _ => rfl
  | a :: t, 0, h => by
    simp only [List.getD_cons_zero] at h
    simp [h]
  | a :: t, i + 1, h => by
    simp only [List.getD_cons_succ] at h
    simp [set_zero_of_getD_zero t i h]

theorem setCell_zero_eq {g : List Nat} {m : Pos} (h : getCell g m = 0) :
    setCell g m 0 = g := set_zero_of_getD_zero g (idx m) h

theorem mem_emptyCells {g : List Nat} {m : Pos} :
    m ∈ emptyCells g ↔ m ∈ allPositions ∧ getCell g m = 0 := by
  unfold emptyCells
  rw [List.mem_filter]
  simp

theorem countEmpty_le (g : List Nat) : countEmpty g ≤ 9 := by
  have h := List.length_filter_le (fun m => getCell g m == 0) allPositions
  exact h

theorem emptyCells_setCell {g : List Nat} {m : Pos} {v : Nat}
    (hlen : g.length = 9) (hm : m ∈ allPositions) (hv : v ≠ 0) :
    emptyCells (setCell g m v) = (emptyCells g).filter (fun x => x != m) := by
  unfold emptyCells
  rw [List.filter_filter]
  apply List.filter_congr
  intro x hx
  by_cases hxm : x = m
  · subst hxm
    rw [getCell_setCell_self (by rw [hlen]; exact idx_lt_of_mem _ hm) v]
    simp [hv]
  · rw [getCell_setCell_ne v (fun he => hxm ((idx_inj m hm x hx he).symm))]
    simp [hxm]

theorem countEmpty_setCell {g : List Nat} {m : Pos} {v : Nat}
    (hlen : g.length = 9) (hm : m ∈ emptyCells g) (hv : v ≠ 0) :
    countEmpty (setCell g m v) + 1 = countEmpty g := by
  obtain ⟨hmA, hm0⟩ := mem_emptyCells.mp hm
  unfold countEmpty
  rw [emptyCells_setCell hlen hmA hv]
  have hnod : (emptyCells g).Nodup := List.Nodup.filter _ allPositions_nodup
  rw [← List.Nodup.erase_eq_filter hnod m]
  have h1 := List.length_erase_of_mem hm
  have h2 : 0 < (emptyCells g).length := List.length_pos.mpr (List.ne_nil_of_mem hm)
  omega

/-! ### Facts about the outcome scan -/

theorem findSome?_mem {α β : Type} {f : α → Option β} :
    ∀ {l : List α} {b : β}, l.findSome? f = some b → ∃ a ∈ l, f a = some b := by
  intro l
  induction l with
  | nil => intro b h; simp [List.findSome?] at h
  | cons a t ih =>
    intro b h
    rw [List.findSome?_cons] at h
    cases hfa : f a with
    | some b' =>
      simp only [hfa] at h
      exact ⟨a, by simp, by rw [hfa, h]⟩
    | none =>
      simp only [hfa] at h
      obtain ⟨x, hx, hfx⟩ := ih h
      exact ⟨x, by simp [hx], hfx⟩

theorem lineWinner_some {row : List Nat} {w : Nat} (h : lineWinner row = some w) :
    w = 1 ∨ w = 2 := by
  unfold lineWinner at h
  split at h
  · exact Or.inl (Option.some.inj h).symm
  · split at h
    · exact Or.inr (Option.some.inj h).symm
    · cases h

theorem winnerOf_some_cases {g : List Nat} {w : Nat} (h : winnerOf g = some w) :
    w = 0 ∨ w = 1 ∨ w = 2 := by
  unfold winnerOf at h
  cases hf : (linesOf g).findSome? lineWinner with
  | some w' =>
    simp only [hf] at h
    have hww := Option.some.inj h
    obtain ⟨row, _, hrow⟩ := findSome?_mem hf
    rcases lineWinner_some hrow with h1 | h1 <;> omega
  | none =>
    simp only [hf] at h
    split at h
    · exact Or.inl (Option.some.inj h).symm
    · cases h

theorem winnerOf_stale_all {g : List Nat} (h : winnerOf g = some 0) :
    g.all (fun c => c != 0) = true := by
  unfold winnerOf at h
  cases hf : (linesOf g).findSome? lineWinner with
  | some w' =>
    simp only [hf] at h
    have hww := Option.some.inj h
    obtain ⟨row, _, hrow⟩ := findSome?_mem hf
    rcases lineWinner_some hrow with h1 | h1 <;> omega
  | none =>
    simp only [hf] at h
    by_cases hall : g.all (fun c => c != 0) = true
    · exact hall
    · rw [if_neg hall] at h
      cases h

theorem emptyCells_nil_of_all {g : List Nat} (hlen : g.length = 9)
    (hall : g.all (fun c => c != 0) = true) : emptyCells g = [] := by
  unfold emptyCells
  rw [List.filter_eq_nil_iff]
  intro m hm
  have hidx : idx m < g.length := by rw [hlen]; exact idx_lt_of_mem m hm
  have hmem : getCell g m ∈ g := by
    unfold getCell
    rw [List.getD_eq_getElem g 0 hidx]
    exact List.getElem_mem hidx
  have := List.all_eq_true.mp hall _ hmem
  simpa using this

theorem emptyCells_eq_nil {g : List Nat} (hlen : g.length = 9)
    (h : winnerOf g = some 0) : emptyCells g = [] :=
  emptyCells_nil_of_all hlen (winnerOf_stale_all h)

theorem emptyCells_ne_nil {g : List Nat} (hlen : g.length = 9)
    (h : winnerOf g = none) : emptyCells g ≠ [] := by
  unfold winnerOf at h
  cases hf : (linesOf g).findSome? lineWinner with
  | some w' => simp [hf] at h
  | none =>
    simp only [hf] at h
    have hall : ¬ g.all (fun c => c != 0) = true := by
      intro hall
      rw [if_pos hall] at h
      cases h
    rw [List.all_eq_true] at hall
    push_neg at hall
    obtain ⟨c, hc, hc0⟩ := hall
    have hc0 : c = 0 := by simpa using hc0
    obtain ⟨i, hi, hgi⟩ := List.mem_iff_getElem.mp hc
    have hi9 : i < 9 := by omega
    have hmA : ((i / 3 : Nat), (i % 3 : Nat)) ∈ allPositions :=
      mem_allPositions (by omega) (by omega)
    have hidx : idx ((i / 3 : Nat), (i % 3 : Nat)) = i := by
      unfold idx
      exact Nat.div_add_mod i 3
    have hcell : getCell g ((i / 3 : Nat), (i % 3 : Nat)) = 0 := by
      unfold getCell
      rw [hidx, List.getD_eq_getElem g 0 hi, hgi, hc0]
    exact List.ne_nil_of_mem (mem_emptyCells.mpr ⟨hmA, hcell⟩)

/-! ### Facts about the spec-side forcing predicate -/

theorem oppOf_ne (p : Nat) : oppOf p ≠ p := by
  unfold oppOf; split <;> omega

theorem oppOf_cases (p : Nat) : oppOf p = 1 ∨ oppOf p = 2 := by
  unfold oppOf; split <;> simp

theorem oppOf_oppOf {p : Nat} (hp : p = 1 ∨ p = 2) : oppOf (oppOf p) = p := by
  rcases hp with h | h <;> subst h <;> rfl

theorem specForces_terminal {g : List Nat} {r q : Nat} {k : Int} {w : Nat}
    (h : winnerOf g = some w) : specForces g r q k ↔ k ≤ scoreOf w r := by
  unfold specForces
  cases hn : countEmpty g with
  | zero => simp [specForcesB, h]
  | succ n => simp [specForcesB, h]

theorem countEmpty_pos {g : List Nat} (hlen : g.length = 9) (h : winnerOf g = none) :
    ∃ n, countEmpty g = n + 1 := by
  have hne := emptyCells_ne_nil hlen h
  unfold countEmpty
  cases hE : emptyCells g with
  | nil => exact absurd hE hne
  | cons a t => exact ⟨t.length, by simp⟩

theorem specForces_move {g : List Nat} {r : Nat} {k : Int}
    (hlen : g.length = 9) (hr : r = 1 ∨ r = 2) (h : winnerOf g = none) :
    specForces g r r k ↔
      ∃ m ∈ emptyCells g, specForces (setCell g m r) r (oppOf r) k := by
  obtain ⟨n, hn⟩ := countEmpty_pos hlen h
  have hr0 : r ≠ 0 := by omega
  have hchild : ∀ m ∈ emptyCells g, countEmpty (setCell g m r) = n := by
    intro m hm
    have := countEmpty_setCell hlen hm hr0
    omega
  unfold specForces
  rw [hn]
  simp only [specForcesB, h, eq_self_iff_true, if_true, List.any_eq_true]
  constructor
  · rintro ⟨m, hm, hb⟩
    exact ⟨m, hm, by rw [hchild m hm]; exact hb⟩
  · rintro ⟨m, hm, hb⟩
    exact ⟨m, hm, by rw [hchild m hm] at hb; exact hb⟩

theorem specForces_adv {g : List Nat} {r q : Nat} {k : Int}
    (hlen : g.length = 9) (hq : q = 1 ∨ q = 2) (hqr : ¬ q = r)
    (h : winnerOf g = none) :
    specForces g r q k ↔
      ∀ m ∈ emptyCells g, specForces (setCell g m q) r (oppOf q) k := by
  obtain ⟨n, hn⟩ := countEmpty_pos hlen h
  have hq0 : q ≠ 0 := by omega
  have hchild : ∀ m ∈ emptyCells g, countEmpty (setCell g m q) = n := by
    intro m hm
    have := countEmpty_setCell hlen hm hq0
    omega
  unfold specForces
  rw [hn]
  simp only [specForcesB, h, if_neg hqr, List.all_eq_true]
  constructor
  · rintro hb m hm
    rw [hchild m hm]
    exact hb m hm
  · rintro hb m hm
    have h2 := hb m hm
    rw [hchild m hm] at h2
    exact h2

/-! ### The move loop as a pure selection fold -/

theorem foldl_stepWith (rec : List Nat → Nat → Pos → Option (Int × List Nat)) (p : Nat)
    (sc : Pos → Int) :
    ∀ (ms : List Pos) (g : List Nat) (best : Option (Int × Pos)),
      (∀ m ∈ ms, rec (setCell g m p) (oppOf p) m = some (sc m, g)) →
      ms.foldl (stepWith rec p) (some (best, g)) =
        some (selectBest best (ms.map fun m => (-(sc m), m)), g) := by
  intro ms
  induction ms with
  | nil => intro g best _; rfl
  | cons m rest ih =>
    intro g best h
    have hm := h m (by simp)
    have hstep : stepWith rec p (some (best, g)) m =
        some ((if isBetter (-(sc m)) best then some (-(sc m), m) else best), g) := by
      simp only [stepWith, hm]
    rw [List.foldl_cons, hstep, List.map_cons]
    rw [ih g _ (fun x hx => h x (by simp [hx]))]
    rfl

theorem selectBest_acc (f : Pos → Int) :
    ∀ (E : List Pos) (b : Int × Pos) (s : Int) (mv : Pos),
      selectBest (some b) (E.map fun m => (f m, m)) = some (s, mv) →
      ((s, mv) = b ∧ ∀ x ∈ E, f x ≤ s) ∨
        (∃ E1 E2, E = E1 ++ mv :: E2 ∧ f mv = s ∧ b.1 < s ∧
          (∀ x ∈ E1, f x < s) ∧ (∀ x ∈ E2, f x ≤ s)) := by
  intro E
  induction E with
  | nil =>
    intro b s mv h
    left
    exact ⟨(Option.some.inj h).symm, by simp⟩
  | cons m rest ih =>
    intro b s mv h
    rw [List.map_cons] at h
    by_cases hlt : isBetter (f m) (some b) = true
    · have hblt : b.1 < f m := by simpa [isBetter] using hlt
      have h2 : selectBest (some (f m, m)) (rest.map fun x => (f x, x)) = some (s, mv) := by
        rw [← h]
        show _ = selectBest (if isBetter (f m) (some b) then some (f m, m) else some b) _
        rw [if_pos hlt]
      rcases ih (f m, m) s mv h2 with ⟨heq, hrest⟩ | ⟨E1, E2, hEeq, hfmv, hlt2, h1, h2b⟩
      · right
        have hs : s = f m := congrArg Prod.fst heq
        have hm : mv = m := congrArg Prod.snd heq
        subst hm
        exact ⟨[], rest, rfl, hs.symm, by omega, by simp, hrest⟩
      · right
        refine ⟨m :: E1, E2, by rw [hEeq]; rfl, hfmv, by omega, ?_, h2b⟩
        intro x hx
        rcases List.mem_cons.mp hx with hxm | hxm
        · subst hxm; exact hlt2
        · exact h1 x hxm
    · have hble : f m ≤ b.1 := by
        have := (Bool.not_eq_true _).mp hlt
        simpa [isBetter, not_lt] using this
      have h2 : selectBest (some b) (rest.map fun x => (f x, x)) = some (s, mv) := by
        rw [← h]
        show _ = selectBest (if isBetter (f m) (some b) then some (f m, m) else some b) _
        rw [if_neg (by simpa using hlt)]
      rcases ih b s mv h2 with ⟨heq, hrest⟩ | ⟨E1, E2, hEeq, hfmv, hlt2, h1, h2b⟩
      · left
        have hs : s = b.1 := congrArg Prod.fst heq
        refine ⟨heq, ?_⟩
        intro x hx
        rcases List.mem_cons.mp hx with hxm | hxm
        · subst hxm; omega
        · exact hrest x hxm
      · right
        refine ⟨m :: E1, E2, by rw [hEeq]; rfl, hfmv, hlt2, ?_, h2b⟩
        intro x hx
        rcases List.mem_cons.mp hx with hxm | hxm
        · subst hxm; omega
        · exact h1 x hxm

theorem selectBest_first (f : Pos → Int) (E : List Pos) (s : Int) (mv : Pos)
    (h : selectBest none (E.map fun m => (f m, m)) = some (s, mv)) :
    ∃ E1 E2, E = E1 ++ mv :: E2 ∧ f mv = s ∧
      (∀ x ∈ E1, f x < s) ∧ (∀ x ∈ E2, f x ≤ s) := by
  cases E with
  | nil => cases h
  | cons m rest =>
    rw [List.map_cons] at h
    have h2 : selectBest (some (f m, m)) (rest.map fun x => (f x, x)) = some (s, mv) := by
      rw [← h]
      show _ = selectBest (if isBetter (f m) none then some (f m, m) else none) _
      rfl
    rcases selectBest_acc f rest (f m, m) s mv h2 with
      ⟨heq, hrest⟩ | ⟨E1, E2, hEeq, hfmv, hlt2, h1, h2b⟩
    · have hs : s = f m := congrArg Prod.fst heq
      have hm : mv = m := congrArg Prod.snd heq
      subst hm
      exact ⟨[], rest, rfl, hs.symm, by simp, hrest⟩
    · refine ⟨m :: E1, E2, by rw [hEeq]; rfl, hfmv, ?_, h2b⟩
      intro x hx
      rcases List.mem_cons.mp hx with hxm | hxm
      · subst hxm; exact hlt2
      · exact h1 x hxm

theorem selectBest_some_acc :
    ∀ (l : List (Int × Pos)) (b : Int × Pos), ∃ sm, selectBest (some b) l = some sm
  | [], b => ⟨b, rfl⟩
  | x :: rest, b => by
    show ∃ sm, selectBest (if isBetter x.1 (some b) then some x else some b) rest = some sm
    by_cases hx : isBetter x.1 (some b) = true
    · rw [if_pos hx]; exact selectBest_some_acc rest x
    · rw [if_neg (by simpa using hx)]; exact selectBest_some_acc rest b

theorem selectBest_ne_nil (f : Pos → Int) (E : List Pos) (hne : E ≠ []) :
    ∃ sm, selectBest none (E.map fun m => (f m, m)) = some sm := by
  cases E with
  | nil => exact absurd rfl hne
  | cons m rest =>
    rw [List.map_cons]
    show ∃ sm, selectBest (if isBetter (f m) none then some (f m, m) else none) _ = some sm
    exact selectBest_some_acc _ _

/-! ### The central characterization of the search -/

theorem minimax_main :
    ∀ n : Nat, ∀ g p, g.length = 9 → (p = 1 ∨ p = 2) → countEmpty g = n →
      ∃ s : Int,
        (∀ lm fuel, n < fuel → minimaxAux fuel g p lm = some (s, setCell g lm 0)) ∧
        (∀ k : Int, specForces g p p k ↔ k ≤ s) ∧
        (∀ k : Int, specForces g (oppOf p) p k ↔ k ≤ -s) := by
  intro n
  induction n using Nat.strong_induction_on with
  | _ n IH =>
    intro g p hlen hp hcnt
    cases hw : winnerOf g with
    | some w =>
      by_cases hwp : w = p
      · refine ⟨1, ?_, ?_, ?_⟩
        · intro lm fuel hf
          cases fuel with
          | zero => omega
          | succ f => simp [minimaxAux, hw, hwp]
        · intro k
          simp [specForces_terminal hw, hwp, scoreOf]
        · intro k
          have hne1 : ¬ p = oppOf p := fun h => oppOf_ne p h.symm
          simp [specForces_terminal hw, hwp, scoreOf, if_neg hne1, oppOf_oppOf hp]
      · by_cases hwo : w = oppOf p
        · refine ⟨-1, ?_, ?_, ?_⟩
          · intro lm fuel hf
            cases fuel with
            | zero => omega
            | succ f => simp [minimaxAux, hw, hwo, oppOf_ne p]
          · intro k
            simp [specForces_terminal hw, hwo, scoreOf, oppOf_ne p]
          · intro k
            simp [specForces_terminal hw, hwo, scoreOf]
        · have hw0 : w = 0 := by
            rcases winnerOf_some_cases hw with h | h | h
            · exact h
            all_goals
              rcases hp with hp1 | hp1 <;> subst hp1 <;>
                simp [oppOf] at hwo <;> omega
          subst hw0
          have hE : emptyCells g = [] := emptyCells_eq_nil hlen hw
          refine ⟨0, ?_, ?_, ?_⟩
          · intro lm fuel hf
            cases fuel with
            | zero => omega
            | succ f =>
              simp only [minimaxAux, hw]
              rw [if_neg hwp, if_neg hwo]
              unfold loopRun
              rw [hE]
              rfl
          · intro k
            simp [specForces_terminal hw, scoreOf, if_neg hwp, if_neg hwo]
          · intro k
            simp [specForces_terminal hw, scoreOf, if_neg hwo, oppOf_oppOf hp, if_neg hwp]
    | none =>
      have hne := emptyCells_ne_nil hlen hw
      have hn9 : n ≤ 9 := by rw [← hcnt]; exact countEmpty_le g
      have hn1 : 1 ≤ n := by
        rw [← hcnt]
        unfold countEmpty
        cases hE : emptyCells g with
        | nil => exact absurd hE hne
        | cons a t => simp
      have hp0 : p ≠ 0 := by omega
      have hchild : ∀ m ∈ emptyCells g,
          (∀ lm fuel, n - 1 < fuel →
            minimaxAux fuel (setCell g m p) (oppOf p) lm =
              some (auxScore (setCell g m p) (oppOf p), setCell (setCell g m p) lm 0)) ∧
          (∀ k, specForces (setCell g m p) (oppOf p) (oppOf p) k ↔
            k ≤ auxScore (setCell g m p) (oppOf p)) ∧
          (∀ k, specForces (setCell g m p) p (oppOf p) k ↔
            k ≤ -(auxScore (setCell g m p) (oppOf p))) := by
        intro m hm
        have hlenc : (setCell g m p).length = 9 := by rw [length_setCell, hlen]
        have hcc : countEmpty (setCell g m p) = n - 1 := by
          have := countEmpty_setCell hlen hm hp0
          omega
        obtain ⟨s', ha, hc1, hc2⟩ :=
          IH (n - 1) (by omega) (setCell g m p) (oppOf p) hlenc (oppOf_cases p) hcc
        have hsa : auxScore (setCell g m p) (oppOf p) = s' := by
          unfold auxScore
          rw [ha (0, 0) 10 (by omega)]
        rw [hsa]
        refine ⟨ha, hc1, ?_⟩
        intro k
        have h2 := hc2 k
        rw [oppOf_oppOf hp] at h2
        exact h2
      have hloop : ∀ fuel, n - 1 < fuel → ∀ m ∈ emptyCells g,
          minimaxAux fuel (setCell g m p) (oppOf p) m =
            some (auxScore (setCell g m p) (oppOf p), g) := by
        intro fuel hf m hm
        have h1 := (hchild m hm).1 m fuel hf
        rw [setCell_setCell, setCell_zero_eq (mem_emptyCells.mp hm).2] at h1
        exact h1
      obtain ⟨⟨s, mv⟩, hsel⟩ :=
        selectBest_ne_nil (fun m => -(auxScore (setCell g m p) (oppOf p))) (emptyCells g) hne
      obtain ⟨E1, E2, hEeq, hfmv, hless, hlesseq⟩ := selectBest_first _ _ _ _ hsel
      have hmvE : mv ∈ emptyCells g := by rw [hEeq]; simp
      have hboundAll : ∀ x ∈ emptyCells g, -(auxScore (setCell g x p) (oppOf p)) ≤ s := by
        intro x hx
        rw [hEeq] at hx
        rcases List.mem_append.mp hx with hx1 | hx2
        · exact le_of_lt (hless x hx1)
        · rcases List.mem_cons.mp hx2 with hxm | hxm
          · subst hxm; exact le_of_eq hfmv
          · exact hlesseq x hxm
      refine ⟨s, ?_, ?_, ?_⟩
      · intro lm fuel hf
        cases fuel with
        | zero => omega
        | succ f =>
          have hf' : n - 1 < f := by omega
          simp only [minimaxAux, hw]
          unfold loopRun
          rw [foldl_stepWith _ p (fun m => auxScore (setCell g m p) (oppOf p))
            (emptyCells g) g none (fun m hm => hloop f hf' m hm)]
          rw [hsel]
      · intro k
        rw [specForces_move hlen hp hw]
        constructor
        · rintro ⟨m, hm, hsp⟩
          have hk := ((hchild m hm).2.2 k).mp hsp
          exact le_trans hk (hboundAll m hm)
        · intro hk
          refine ⟨mv, hmvE, ?_⟩
          apply ((hchild mv hmvE).2.2 k).mpr
          rw [hfmv]
          exact hk
      · intro k
        rw [specForces_adv hlen hp (fun h => oppOf_ne p h.symm) hw]
        constructor
        · intro hall
          have hk := ((hchild mv hmvE).2.1 k).mp (hall mv hmvE)
          omega
        · intro hk m hm
          apply ((hchild m hm).2.1 k).mpr
          have hb := hboundAll m hm
          omega

/-- The characterization of the search restated through auxScore: a
recursive call with enough fuel returns the fixed score together with the
entry grid with last_move cleared, and that score is exactly the spec-side
game value from both perspectives. -/
theorem auxScore_spec {g : List Nat} {p : Nat} (hlen : g.length = 9)
    (hp : p = 1 ∨ p = 2) :
    (∀ lm fuel, countEmpty g < fuel →
      minimaxAux fuel g p lm = some (auxScore g p, setCell g lm 0)) ∧
    (∀ k, specForces g p p k ↔ k ≤ auxScore g p) ∧
    (∀ k, specForces g (oppOf p) p k ↔ k ≤ -(auxScore g p)) := by
  obtain ⟨s, ha, h1, h2⟩ := minimax_main (countEmpty g) g p hlen hp rfl
  have hsa : auxScore g p = s := by
    unfold auxScore
    rw [ha (0, 0) 10 (by have := countEmpty_le g; omega)]
  rw [hsa]
  exact ⟨ha, h1, h2⟩

/-- The value characterization of the child position reached by one move. -/
theorem childNeg_spec {g : List Nat} {p : Nat} {m : Pos} (hlen : g.length = 9)
    (hp : p = 1 ∨ p = 2) :
    (∀ k, specForces (setCell g m p) (oppOf p) (oppOf p) k ↔
      k ≤ auxScore (setCell g m p) (oppOf p)) ∧
    (∀ k, specForces (setCell g m p) p (oppOf p) k ↔ k ≤ childNeg g p m) := by
  have hlenc : (setCell g m p).length = 9 := by rw [length_setCell, hlen]
  obtain ⟨_, h1, h2⟩ := auxScore_spec hlenc (oppOf_cases p)
  refine ⟨h1, ?_⟩
  intro k
  have h3 := h2 k
  rw [oppOf_oppOf hp] at h3
  exact h3

/-- A successful top-level call on a non-terminal grid: the KeyError on
the normal path is caught, the returned pair is the row-major
first-strict-improvement selection over the empty cells, and the grid
returned is the grid passed in. -/
theorem minimaxTop_eq {g : List Nat} {p : Nat} (hlen : g.length = 9)
    (hp : p = 1 ∨ p = 2) (hw : winnerOf g = none) :
    ∃ s mv, minimaxTop g p = some (Except.ok (s, mv), g) ∧
      selectBest none ((emptyCells g).map
        fun m => (-(auxScore (setCell g m p) (oppOf p)), m)) = some (s, mv) := by
  have hp0 : p ≠ 0 := by omega
  have hloop : ∀ m ∈ emptyCells g,
      minimaxAux 9 (setCell g m p) (oppOf p) m =
        some (auxScore (setCell g m p) (oppOf p), g) := by
    intro m hm
    have hlenc : (setCell g m p).length = 9 := by rw [length_setCell, hlen]
    have hcc : countEmpty (setCell g m p) < 9 := by
      have h1 := countEmpty_setCell hlen hm hp0
      have h2 := countEmpty_le g
      omega
    have ha := (auxScore_spec hlenc (oppOf_cases p)).1 m 9 hcc
    rw [setCell_setCell, setCell_zero_eq (mem_emptyCells.mp hm).2] at ha
    exact ha
  obtain ⟨⟨s, mv⟩, hsel⟩ :=
    selectBest_ne_nil (fun m => -(auxScore (setCell g m p) (oppOf p))) (emptyCells g)
      (emptyCells_ne_nil hlen hw)
  refine ⟨s, mv, ?_, hsel⟩
  simp only [minimaxTop, hw]
  rw [foldl_stepWith _ p (fun m => auxScore (setCell g m p) (oppOf p))
    (emptyCells g) g none (fun m hm => hloop m hm)]
  rw [hsel]

/-- The selected pair is attained by its move, the move is one of the
candidates, and no candidate scores strictly higher. -/
theorem selectBest_mem_le (f : Pos → Int) {E : List Pos} {s : Int} {mv : Pos}
    (h : selectBest none (E.map fun m => (f m, m)) = some (s, mv)) :
    f mv = s ∧ mv ∈ E ∧ ∀ x ∈ E, f x ≤ s := by
  obtain ⟨E1, E2, hEeq, hfmv, h1, h2⟩ := selectBest_first f E s mv h
  refine ⟨hfmv, by rw [hEeq]; simp, ?_⟩
  intro x hx
  rw [hEeq] at hx
  rcases List.mem_append.mp hx with hx1 | hx2
  · exact le_of_lt (h1 x hx1)
  · rcases List.mem_cons.mp hx2 with hxm | hxm
    · subst hxm; exact le_of_eq hfmv
    · exact h2 x hxm

theorem winnerOf_findSome_of_hasLine {g : List Nat} {s : Nat}
    (hs : s = 1 ∨ s = 2) (h : hasLineB g s = true) :
    ∃ w, (linesOf g).findSome? lineWinner = some w := by
  unfold hasLineB at h
  rw [List.any_eq_true] at h
  obtain ⟨row, hrow, hall⟩ := h
  cases hfs : (linesOf g).findSome? lineWinner with
  | some w => exact ⟨w, rfl⟩
  | none =>
    exfalso
    have hnone := List.findSome?_eq_none_iff.mp hfs row hrow
    unfold lineWinner at hnone
    rcases hs with h1 | h1 <;> subst h1
    · rw [if_pos hall] at hnone; cases hnone
    · split at hnone
      · cases hnone
      · simp [hall] at hnone

theorem winnerOf_some_of_terminal {g : List Nat}
    (hterm : hasLineB g 1 = true ∨ hasLineB g 2 = true ∨
      g.all (fun c => c != 0) = true) :
    ∃ w, winnerOf g = some w := by
  unfold winnerOf
  rcases hterm with h | h | h
  · obtain ⟨w, hw⟩ := winnerOf_findSome_of_hasLine (Or.inl rfl) h
    rw [hw]
    exact ⟨w, rfl⟩
  · obtain ⟨w, hw⟩ := winnerOf_findSome_of_hasLine (Or.inr rfl) h
    rw [hw]
    exact ⟨w, rfl⟩
  · cases hfs : (linesOf g).findSome? lineWinner with
    | some w => exact ⟨w, rfl⟩
    | none => rw [if_pos h]; exact ⟨0, rfl⟩

/-! ### Claim theorems: the search engine -/

/-- Claim C10: the player assertion in minimax parses as
(player is PLAYER_X) or PLAYER_O, whose truth value is always true because
the literal 2 is truthy; the assert therefore validates nothing for any
player value. -/
theorem minimax_player_assert_vacuous (player : Int) :
    minimaxAssertCond player = true := by
  unfold minimaxAssertCond pyTruthyInt
  simp

/-- Claim C9: on every terminal 3x3 grid (a completed line for either
symbol, or a completely full grid) a top-level minimax call, which lacks
the last_move keyword, raises KeyError, and the grid is unchanged when the
exception propagates. -/
theorem minimax_terminal_keyerror {g : List Nat} {p : Nat}
    (hlen : g.length = 9) (hp : p = 1 ∨ p = 2)
    (hterm : hasLineB g 1 = true ∨ hasLineB g 2 = true ∨
      g.all (fun c => c != 0) = true) :
    minimaxTop g p = some (Except.error (), g) := by
  obtain ⟨w, hw⟩ := winnerOf_some_of_terminal hterm
  by_cases hwp : w = p
  · simp [minimaxTop, hw, hwp]
  · by_cases hwo : w = oppOf p
    · simp only [minimaxTop, hw]
      rw [if_neg hwp, if_pos hwo]
    · have hw0 : w = 0 := by
        rcases winnerOf_some_cases hw with h | h | h
        · exact h
        all_goals
          rcases hp with hp1 | hp1 <;> subst hp1 <;>
            simp [oppOf] at hwo <;> omega
      subst hw0
      have hE := emptyCells_eq_nil hlen hw
      simp only [minimaxTop, hw]
      rw [if_neg hwp, if_neg hwo, hE]
      rfl

/-- Witness for C9 at a grid won by X, queried for player O. -/
theorem minimax_terminal_keyerror_witness :
    minimaxTop [1, 1, 1, 2, 2, 0, 0, 0, 0] 2 =
      some (Except.error (), [1, 1, 1, 2, 2, 0, 0, 0, 0]) :=
  minimax_terminal_keyerror (by decide) (Or.inr rfl) (Or.inl (by decide))

/-- Claim C2: a top-level minimax call on a non-terminal grid returns
normally, and the grid it leaves behind is byte-for-byte the grid passed
in: every tentative mark of the exploration has been restored. -/
theorem minimax_preserves_grid {g : List Nat} {p : Nat}
    (hlen : g.length = 9) (hp : p = 1 ∨ p = 2) (hnt : winnerOf g = none) :
    ∃ s mv, minimaxTop g p = some (Except.ok (s, mv), g) := by
  obtain ⟨s, mv, h1, _⟩ := minimaxTop_eq hlen hp hnt
  exact ⟨s, mv, h1⟩

/-- Witness for C2 at a non-terminal eight-mark grid. -/
theorem minimax_preserves_grid_witness :
    ∃ s mv, minimaxTop [1, 2, 1, 2, 1, 2, 2, 1, 0] 1 =
      some (Except.ok (s, mv), [1, 2, 1, 2, 1, 2, 2, 1, 0]) :=
  minimax_preserves_grid (by decide) (Or.inl rfl) (by decide)

/-- Claim C3: the search is deterministic (equal inputs give the equal
output pair), and the returned move is the first empty cell, in the
row-major order of emptyCells, whose candidate score attains the best:
every earlier empty cell scores strictly lower and every later one scores
no higher. -/
theorem minimax_deterministic_rowmajor {g : List Nat} {p : Nat}
    (hlen : g.length = 9) (hp : p = 1 ∨ p = 2) (hnt : winnerOf g = none) :
    minimaxTop g p = minimaxTop g p ∧
      ∀ s mv, minimaxTop g p = some (Except.ok (s, mv), g) →
        ∃ E1 E2, emptyCells g = E1 ++ mv :: E2 ∧ childNeg g p mv = s ∧
          (∀ x ∈ E1, childNeg g p x < s) ∧ (∀ x ∈ E2, childNeg g p x ≤ s) := by
  refine ⟨rfl, ?_⟩
  intro s mv hrun
  obtain ⟨s0, mv0, h1, hsel⟩ := minimaxTop_eq hlen hp hnt
  rw [h1] at hrun
  simp only [Option.some.injEq, Prod.mk.injEq, Except.ok.injEq, and_true] at hrun
  obtain ⟨hs0, hmv0⟩ := hrun
  subst hs0
  subst hmv0
  exact selectBest_first _ _ _ _ hsel

/-- Witness for C3 at a non-terminal eight-mark grid. -/
theorem minimax_deterministic_rowmajor_witness :
    minimaxTop [1, 2, 1, 2, 1, 2, 2, 1, 0] 1 = minimaxTop [1, 2, 1, 2, 1, 2, 2, 1, 0] 1 ∧
      ∀ s mv, minimaxTop [1, 2, 1, 2, 1, 2, 2, 1, 0] 1 =
          some (Except.ok (s, mv), [1, 2, 1, 2, 1, 2, 2, 1, 0]) →
        ∃ E1 E2, emptyCells [1, 2, 1, 2, 1, 2, 2, 1, 0] = E1 ++ mv :: E2 ∧
          childNeg [1, 2, 1, 2, 1, 2, 2, 1, 0] 1 mv = s ∧
          (∀ x ∈ E1, childNeg [1, 2, 1, 2, 1, 2, 2, 1, 0] 1 x < s) ∧
          (∀ x ∈ E2, childNeg [1, 2, 1, 2, 1, 2, 2, 1, 0] 1 x ≤ s) :=
  minimax_deterministic_rowmajor (by decide) (Or.inl rfl) (by decide)

/-- Claim C1: on a non-terminal, reachable grid with the turn-count
invariant intact, when some move lets the automated player still force a
draw-or-better result against optimal play, the move minimax returns also
does: the opponent can never force a win after it, so the automated player
never loses. -/
theorem minimax_never_loses {g : List Nat} {p : Nat} {s : Int} {mv : Pos}
    (hlen : g.length = 9)
    (hcells : ∀ c ∈ g, c = 0 ∨ c = 1 ∨ c = 2)
    (hp : p = 1 ∨ p = 2)
    (hreach : (p = 1 ∧ g.count 1 = g.count 2) ∨
      (p = 2 ∧ g.count 1 = g.count 2 + 1))
    (hnt : winnerOf g = none)
    (hrun : minimaxTop g p = some (Except.ok (s, mv), g))
    (hdraw : ∃ m ∈ emptyCells g, specForces (setCell g m p) p (oppOf p) 0) :
    specForces (setCell g mv p) p (oppOf p) 0 := by
  obtain ⟨s0, mv0, h1, hsel⟩ := minimaxTop_eq hlen hp hnt
  rw [h1] at hrun
  simp only [Option.some.injEq, Prod.mk.injEq, Except.ok.injEq, and_true] at hrun
  obtain ⟨hs0, hmv0⟩ := hrun
  rw [hs0, hmv0] at hsel
  obtain ⟨hfmv, hmvE, hbound⟩ := selectBest_mem_le _ hsel
  obtain ⟨m, hm, hspm⟩ := hdraw
  have h0m : (0 : Int) ≤ childNeg g p m := ((childNeg_spec hlen hp).2 0).mp hspm
  have hms := hbound m hm
  apply ((childNeg_spec hlen hp).2 0).mpr
  show (0 : Int) ≤ childNeg g p mv
  have hmv : childNeg g p mv = s := hfmv
  have hmle : childNeg g p m ≤ s := hms
  omega

/-- Witness for C1 at a grid where X immediately wins at the single empty
cell: a draw-or-better continuation exists and the claim applies. -/
theorem minimax_never_loses_witness :
    specForces (setCell [1, 2, 1, 2, 1, 2, 2, 1, 0] (2, 2) 1) 1 (oppOf 1) 0 :=
  @minimax_never_loses [1, 2, 1, 2, 1, 2, 2, 1, 0] 1 1 (2, 2) (by decide) (by decide)
    (Or.inl rfl) (Or.inl ⟨rfl, by decide⟩) (by decide) (by rfl)
    ⟨(2, 2), by decide, by decide⟩

/-! ### Claim theorems: the game controller -/

/-- Claim C5: once the winner attribute is set, running the win check
again on the unchanged board leaves it unchanged, and the win check is
idempotent in general. -/
theorem check_win_idempotent (s : GameState) :
    (s.winner ≠ none → check_win s = s) ∧
      check_win (check_win s) = check_win s := by
  constructor
  · intro h
    cases hw : s.winner with
    | none => exact absurd hw h
    | some w => simp [check_win, hw]
  · cases hw : s.winner with
    | some w => simp [check_win, hw]
    | none =>
      cases hww : winnerOf s.spaces with
      | some w => simp [check_win, hw, hww]
      | none => simp [check_win, hw, hww]

/-- Witness for C5 on a freshly won board state. -/
theorem check_win_idempotent_witness :
    check_win ⟨[1, 1, 1, 2, 2, 0, 0, 0, 0], some 1, 2, 2⟩ =
      (⟨[1, 1, 1, 2, 2, 0, 0, 0, 0], some 1, 2, 2⟩ : GameState) :=
  (check_win_idempotent ⟨[1, 1, 1, 2, 2, 0, 0, 0, 0], some 1, 2, 2⟩).1 (by decide)

/-- Claim C6: place_marker is a rejecting no-op, leaving the whole state
(grid, turn and outcome) unchanged, both when the outcome is already
terminal and when the target cell is occupied. -/
theorem place_marker_noop (s : GameState) (m : Pos) :
    (s.winner ≠ none → place_marker s m = s) ∧
      (getCell s.spaces m ≠ 0 → place_marker s m = s) := by
  constructor
  · intro h
    cases hw : s.winner with
    | none => exact absurd hw h
    | some w => simp [place_marker, hw]
  · intro h
    cases hw : s.winner with
    | some w => simp [place_marker, hw]
    | none => simp [place_marker, hw, h]

/-- Witness for C6: a finished game ignores a move, and an occupied cell
is ignored on an unfinished game. -/
theorem place_marker_noop_witness :
    place_marker ⟨[1, 1, 1, 2, 2, 0, 0, 0, 0], some 1, 2, 2⟩ (2, 2) =
      (⟨[1, 1, 1, 2, 2, 0, 0, 0, 0], some 1, 2, 2⟩ : GameState) ∧
    place_marker ⟨[1, 2, 0, 0, 0, 0, 0, 0, 0], none, 1, 2⟩ (0, 1) =
      (⟨[1, 2, 0, 0, 0, 0, 0, 0, 0], none, 1, 2⟩ : GameState) :=
  ⟨(place_marker_noop ⟨[1, 1, 1, 2, 2, 0, 0, 0, 0], some 1, 2, 2⟩ (2, 2)).1 (by decide),
    (place_marker_noop ⟨[1, 2, 0, 0, 0, 0, 0, 0, 0], none, 1, 2⟩ (0, 1)).2 (by decide)⟩

theorem check_win_spaces (s : GameState) :
    (check_win s).spaces = s.spaces ∧ (check_win s).turn = s.turn := by
  cases hw : s.winner with
  | some w => simp [check_win, hw]
  | none =>
    cases hww : winnerOf s.spaces with
    | some w => simp [check_win, hw, hww]
    | none => simp [check_win, hw, hww]

theorem count_setCell {g : List Nat} {m : Pos} {v c : Nat}
    (hidx : idx m < g.length) (hcell : getCell g m = 0) (hv : v ≠ 0) (hc : c ≠ 0) :
    (setCell g m v).count c =
      g.count c + (if v = c then 1 else 0) := by
  unfold setCell
  rw [List.count_set v c g (idx m) hidx]
  have hg : g[idx m] = 0 := by
    have := hcell
    unfold getCell at this
    rw [List.getD_eq_getElem g 0 hidx] at this
    exact this
  rw [hg]
  have h1 : ((0 : Nat) == c) = false := by
    simp
    omega
  rw [h1]
  by_cases hvc : v = c
  · subst hvc
    simp
  · rw [if_neg hvc]
    have h2 : (v == c) = false := by
      simp
      exact hvc
    rw [h2]
    simp

theorem place_marker_preserves_inv {s : GameState} (h : turnCountInv s) (m : Pos)
    (hm : m.1 < 3 ∧ m.2 < 3) : turnCountInv (place_marker s m) := by
  obtain ⟨hlen, hturn⟩ := h
  cases hw : s.winner with
  | some w =>
    have hid : place_marker s m = s := by simp [place_marker, hw]
    rw [hid]
    exact ⟨hlen, hturn⟩
  | none =>
    by_cases hc : getCell s.spaces m = 0
    · have hidx : idx m < s.spaces.length := by
        unfold idx
        omega
      have hone : (1 : Nat) ≠ 0 := by omega
      have htwo : (2 : Nat) ≠ 0 := by omega
      have hsp : place_marker s m =
          check_win (end_turn { s with spaces := setCell s.spaces m s.turn }) := by
        simp [place_marker, hw, hc]
      rw [hsp]
      obtain ⟨hcs, hct⟩ := check_win_spaces
        (end_turn { s with spaces := setCell s.spaces m s.turn })
      have hes : (end_turn { s with spaces := setCell s.spaces m s.turn }).spaces
          = setCell s.spaces m s.turn := rfl
      have het : (end_turn { s with spaces := setCell s.spaces m s.turn }).turn
          = if s.turn = 1 then 2 else 1 := rfl
      refine ⟨?_, ?_⟩
      · rw [hcs, hes, length_setCell, hlen]
      · rcases hturn with ⟨ht, hcount⟩ | ⟨ht, hcount⟩
        · right
          rw [hcs, hct, hes, het, ht]
          have hc1 := count_setCell hidx hc hone hone
          have hc2 := count_setCell hidx hc hone htwo
          rw [hc1, hc2]
          constructor
          · simp
          · simp
            omega
        · left
          rw [hcs, hct, hes, het, ht]
          have hc1 := count_setCell hidx hc htwo hone
          have hc2 := count_setCell hidx hc htwo htwo
          rw [hc1, hc2]
          constructor
          · simp
          · simp
            omega
    · have hid : place_marker s m = s := by simp [place_marker, hw, hc]
      rw [hid]
      exact ⟨hlen, hturn⟩

theorem applyMoves_inv_aux :
    ∀ (ps : List Pos) (s : GameState), turnCountInv s →
      (∀ m ∈ ps, m.1 < 3 ∧ m.2 < 3) →
      turnCountInv (ps.foldl place_marker s) := by
  intro ps
  induction ps with
  | nil => intro s h _; exact h
  | cons m rest ih =>
    intro s h hps
    rw [List.foldl_cons]
    exact ih (place_marker s m)
      (place_marker_preserves_inv h m (hps m (by simp)))
      (fun x hx => hps x (by simp [hx]))

theorem turnCountInv_init (opp0 : Nat) : turnCountInv (initGame opp0) := by
  constructor
  · rfl
  · left
    exact ⟨rfl, by rfl⟩

theorem applyMoves_inv (opp0 : Nat) (ps : List Pos)
    (hps : ∀ m ∈ ps, m.1 < 3 ∧ m.2 < 3) : turnCountInv (applyMoves opp0 ps) :=
  applyMoves_inv_aux ps (initGame opp0) (turnCountInv_init opp0) hps

/-- Claim C7: after any sequence of in-bounds place_marker calls from the
initial state, the count of X cells minus the count of O cells is 0 or 1,
and the turn flips, exactly as end_turn computes it, precisely on the
calls that actually place a mark (the other calls leave the state
untouched). -/
theorem place_marker_alternation (opp0 : Nat) (ps : List Pos)
    (hps : ∀ m ∈ ps, m.1 < 3 ∧ m.2 < 3) :
    ((applyMoves opp0 ps).spaces.count 1 = (applyMoves opp0 ps).spaces.count 2 ∨
      (applyMoves opp0 ps).spaces.count 1 = (applyMoves opp0 ps).spaces.count 2 + 1) ∧
    ∀ m : Pos, m.1 < 3 → m.2 < 3 →
      (((applyMoves opp0 ps).winner = none ∧
          getCell (applyMoves opp0 ps).spaces m = 0) →
        (place_marker (applyMoves opp0 ps) m).turn =
            (if (applyMoves opp0 ps).turn = 1 then 2 else 1) ∧
          (place_marker (applyMoves opp0 ps) m).spaces ≠
            (applyMoves opp0 ps).spaces) ∧
      (¬ ((applyMoves opp0 ps).winner = none ∧
          getCell (applyMoves opp0 ps).spaces m = 0) →
        place_marker (applyMoves opp0 ps) m = applyMoves opp0 ps) := by
  obtain ⟨hlen, hturn⟩ := applyMoves_inv opp0 ps hps
  constructor
  · rcases hturn with ⟨_, hc⟩ | ⟨_, hc⟩
    · left; exact hc
    · right; exact hc
  · intro m hm1 hm2
    set t := applyMoves opp0 ps with ht
    constructor
    · rintro ⟨hwn, hcell⟩
      have hsp : place_marker t m =
          check_win (end_turn { t with spaces := setCell t.spaces m t.turn }) := by
        simp [place_marker, hwn, hcell]
      obtain ⟨hcs, hct⟩ := check_win_spaces
        (end_turn { t with spaces := setCell t.spaces m t.turn })
      constructor
      · rw [hsp, hct]
        simp [end_turn]
      · rw [hsp, hcs]
        simp only [end_turn]
        intro heq
        have hidx : idx m < t.spaces.length := by
          unfold idx
          omega
        have hread : getCell (setCell t.spaces m t.turn) m = t.turn :=
          getCell_setCell_self hidx t.turn
        rw [heq] at hread
        rw [hcell] at hread
        rcases hturn with ⟨h1, _⟩ | ⟨h1, _⟩ <;> omega
    · intro hnot
      cases hw : t.winner with
      | some w => simp [place_marker, hw]
      | none =>
        have hcell : getCell t.spaces m ≠ 0 := by
          intro hc
          exact hnot ⟨hw, hc⟩
        simp [place_marker, hw, hcell]

/-- Witness for C7 after the moves (0,0) and (1,1). -/
theorem place_marker_alternation_witness :
    ((applyMoves 2 [(0, 0), (1, 1)]).spaces.count 1 =
        (applyMoves 2 [(0, 0), (1, 1)]).spaces.count 2 ∨
      (applyMoves 2 [(0, 0), (1, 1)]).spaces.count 1 =
        (applyMoves 2 [(0, 0), (1, 1)]).spaces.count 2 + 1) ∧
    ∀ m : Pos, m.1 < 3 → m.2 < 3 →
      (((applyMoves 2 [(0, 0), (1, 1)]).winner = none ∧
          getCell (applyMoves 2 [(0, 0), (1, 1)]).spaces m = 0) →
        (place_marker (applyMoves 2 [(0, 0), (1, 1)]) m).turn =
            (if (applyMoves 2 [(0, 0), (1, 1)]).turn = 1 then 2 else 1) ∧
          (place_marker (applyMoves 2 [(0, 0), (1, 1)]) m).spaces ≠
            (applyMoves 2 [(0, 0), (1, 1)]).spaces) ∧
      (¬ ((applyMoves 2 [(0, 0), (1, 1)]).winner = none ∧
          getCell (applyMoves 2 [(0, 0), (1, 1)]).spaces m = 0) →
        place_marker (applyMoves 2 [(0, 0), (1, 1)]) m =
          applyMoves 2 [(0, 0), (1, 1)]) :=
  place_marker_alternation 2 [(0, 0), (1, 1)] (by decide)

/-! ### Claim C4: outcome detection versus the spec wording -/

theorem exists_nine {g : List Nat} (hlen : g.length = 9) :
    ∃ c0 c1 c2 c3 c4 c5 c6 c7 c8, g = [c0, c1, c2, c3, c4, c5, c6, c7, c8] := by
  rcases g with _ | ⟨c0, g⟩
  · simp at hlen
  rcases g with _ | ⟨c1, g⟩
  · simp at hlen
  rcases g with _ | ⟨c2, g⟩
  · simp at hlen
  rcases g with _ | ⟨c3, g⟩
  · simp at hlen
  rcases g with _ | ⟨c4, g⟩
  · simp at hlen
  rcases g with _ | ⟨c5, g⟩
  · simp at hlen
  rcases g with _ | ⟨c6, g⟩
  · simp at hlen
  rcases g with _ | ⟨c7, g⟩
  · simp at hlen
  rcases g with _ | ⟨c8, g⟩
  · simp at hlen
  rcases g with _ | ⟨c9, g⟩
  · exact ⟨c0, c1, c2, c3, c4, c5, c6, c7, c8, rfl⟩
  · simp at hlen

theorem all_bridge {g : List Nat} (hlen : g.length = 9) :
    g.all (fun c => c != 0) = allFullB g := by
  obtain ⟨c0, c1, c2, c3, c4, c5, c6, c7, c8, rfl⟩ := exists_nine hlen
  rfl

theorem lineWinner_eq_none {row : List Nat} :
    lineWinner row = none ↔
      (row.all (fun c => c == 1) = false ∧ row.all (fun c => c == 2) = false) := by
  unfold lineWinner
  by_cases h1 : row.all (fun c => c == 1) = true
  · rw [if_pos h1]
    simp [h1]
  · rw [if_neg h1]
    by_cases h2 : row.all (fun c => c == 2) = true
    · rw [if_pos h2]
      simp [h2]
    · rw [if_neg h2]
      rw [Bool.not_eq_true] at h1 h2
      simp [h1, h2]

theorem hasLineB_false {g : List Nat} {s : Nat} (h : hasLineB g s = false) :
    ∀ row ∈ linesOf g, row.all (fun c => c == s) = false := by
  unfold hasLineB at h
  rw [List.any_eq_false] at h
  intro row hrow
  have := h row hrow
  rw [Bool.not_eq_true] at this
  exact this

theorem findSome_lineWinner_one :
    ∀ (L : List (List Nat)), (∃ row ∈ L, row.all (fun c => c == 1) = true) →
      (∀ row ∈ L, row.all (fun c => c == 2) = false) →
      L.findSome? lineWinner = some 1 := by
  intro L
  induction L with
  | nil =>
    rintro ⟨row, hrow, _⟩ _
    simp at hrow
  | cons r rest ih =>
    rintro ⟨row, hrow, hall⟩ h2
    rw [List.findSome?_cons]
    by_cases hr1 : r.all (fun c => c == 1) = true
    · have hr : lineWinner r = some 1 := by
        unfold lineWinner
        rw [if_pos hr1]
      rw [hr]
    · have hr2 : r.all (fun c => c == 2) = false := h2 r (by simp)
      have hr : lineWinner r = none :=
        lineWinner_eq_none.mpr ⟨by rwa [Bool.not_eq_true] at hr1, hr2⟩
      rw [hr]
      show rest.findSome? lineWinner = some 1
      apply ih
      · rcases List.mem_cons.mp hrow with hh | hh
        · subst hh
          exact absurd hall hr1
        · exact ⟨row, hh, hall⟩
      · intro x hx
        exact h2 x (by simp [hx])

theorem findSome_lineWinner_two :
    ∀ (L : List (List Nat)), (∀ row ∈ L, row.all (fun c => c == 1) = false) →
      (∃ row ∈ L, row.all (fun c => c == 2) = true) →
      L.findSome? lineWinner = some 2 := by
  intro L
  induction L with
  | nil =>
    rintro _ ⟨row, hrow, _⟩
    simp at hrow
  | cons r rest ih =>
    rintro h1 ⟨row, hrow, hall⟩
    rw [List.findSome?_cons]
    have hr1 : r.all (fun c => c == 1) = false := h1 r (by simp)
    by_cases hr2 : r.all (fun c => c == 2) = true
    · have hr : lineWinner r = some 2 := by
        unfold lineWinner
        rw [if_neg (by simp [hr1]), if_pos hr2]
      rw [hr]
    · have hr : lineWinner r = none :=
        lineWinner_eq_none.mpr ⟨hr1, by rwa [Bool.not_eq_true] at hr2⟩
      rw [hr]
      show rest.findSome? lineWinner = some 2
      apply ih
      · intro x hx
        exact h1 x (by simp [hx])
      · rcases List.mem_cons.mp hrow with hh | hh
        · subst hh
          exact absurd hall hr2
        · exact ⟨row, hh, hall⟩

theorem hasLineB_exists {g : List Nat} {s : Nat} (h : hasLineB g s = true) :
    ∃ row ∈ linesOf g, row.all (fun c => c == s) = true := by
  unfold hasLineB at h
  rw [List.any_eq_true] at h
  exact h

/-- Counterexample for claim C4 as stated: on a grid holding a completed
line for each symbol, check_win_grid reports X although a full line of O
exists, so the biconditional between WonBy(s) and the existence of a line
of s fails for s = O. -/
theorem compute_outcome_counterexample :
    hasLineB [1, 1, 1, 2, 2, 2, 0, 0, 0] 2 = true ∧
      winnerOf [1, 1, 1, 2, 2, 2, 0, 0, 0] ≠ some 2 := by decide

/-- Claim C4 (amended): provided at most one symbol owns a completed line,
the pure outcome scan returns WonBy(s) exactly when some one of the 8
lines is entirely filled with the non-empty symbol s, returns Draw (stale)
exactly when no line is owned and every cell is non-empty, and returns
Unresolved exactly when no line is owned and some cell is empty. -/
theorem compute_outcome_characterization {g : List Nat} (hlen : g.length = 9)
    (hx : ¬(hasLineB g 1 = true ∧ hasLineB g 2 = true)) :
    (∀ s, s = 1 ∨ s = 2 → (winnerOf g = some s ↔ hasLineB g s = true)) ∧
    (winnerOf g = some 0 ↔
      (hasLineB g 1 = false ∧ hasLineB g 2 = false ∧ allFullB g = true)) ∧
    (winnerOf g = none ↔
      (hasLineB g 1 = false ∧ hasLineB g 2 = false ∧ allFullB g = false)) := by
  cases hb1 : hasLineB g 1 with
  | true =>
    cases hb2 : hasLineB g 2 with
    | true => exact absurd ⟨hb1, hb2⟩ hx
    | false =>
      have hfs : (linesOf g).findSome? lineWinner = some 1 :=
        findSome_lineWinner_one (linesOf g) (hasLineB_exists hb1) (hasLineB_false hb2)
      have hwin : winnerOf g = some 1 := by
        unfold winnerOf
        rw [hfs]
      refine ⟨?_, ?_, ?_⟩
      · intro s hs
        rcases hs with h | h <;> subst h <;> simp [hwin, hb1, hb2]
      · simp [hwin, hb1]
      · simp [hwin]
  | false =>
    cases hb2 : hasLineB g 2 with
    | true =>
      have hfs : (linesOf g).findSome? lineWinner = some 2 :=
        findSome_lineWinner_two (linesOf g) (hasLineB_false hb1) (hasLineB_exists hb2)
      have hwin : winnerOf g = some 2 := by
        unfold winnerOf
        rw [hfs]
      refine ⟨?_, ?_, ?_⟩
      · intro s hs
        rcases hs with h | h <;> subst h <;> simp [hwin, hb1, hb2]
      · simp [hwin, hb1]
      · simp [hwin]
    | false =>
      have hfs : (linesOf g).findSome? lineWinner = none := by
        rw [List.findSome?_eq_none_iff]
        intro row hrow
        exact lineWinner_eq_none.mpr
          ⟨hasLineB_false hb1 row hrow, hasLineB_false hb2 row hrow⟩
      have hwin : winnerOf g = if allFullB g = true then some 0 else none := by
        unfold winnerOf
        rw [hfs, all_bridge hlen]
      cases hfull : allFullB g with
      | true =>
        rw [hfull] at hwin
        simp only [if_pos] at hwin
        refine ⟨?_, ?_, ?_⟩
        · intro s hs
          rcases hs with h | h <;> subst h <;> simp [hwin, hb1, hb2]
        · simp [hwin, hb1, hb2, hfull]
        · simp [hwin]
      | false =>
        rw [hfull] at hwin
        simp only [Bool.false_eq_true, if_false] at hwin
        refine ⟨?_, ?_, ?_⟩
        · intro s hs
          rcases hs with h | h <;> subst h <;> simp [hwin, hb1, hb2]
        · simp [hwin]
        · simp [hwin, hb1, hb2, hfull]

/-- Witness for the amended C4 on a single-mark grid. -/
theorem compute_outcome_characterization_witness :
    (∀ s, s = 1 ∨ s = 2 → (winnerOf [1, 0, 0, 0, 0, 0, 0, 0, 0] = some s ↔
      hasLineB [1, 0, 0, 0, 0, 0, 0, 0, 0] s = true)) ∧
    (winnerOf [1, 0, 0, 0, 0, 0, 0, 0, 0] = some 0 ↔
      (hasLineB [1, 0, 0, 0, 0, 0, 0, 0, 0] 1 = false ∧
        hasLineB [1, 0, 0, 0, 0, 0, 0, 0, 0] 2 = false ∧
        allFullB [1, 0, 0, 0, 0, 0, 0, 0, 0] = true)) ∧
    (winnerOf [1, 0, 0, 0, 0, 0, 0, 0, 0] = none ↔
      (hasLineB [1, 0, 0, 0, 0, 0, 0, 0, 0] 1 = false ∧
        hasLineB [1, 0, 0, 0, 0, 0, 0, 0, 0] 2 = false ∧
        allFullB [1, 0, 0, 0, 0, 0, 0, 0, 0] = false)) :=
  compute_outcome_characterization (by decide) (by decide)

/-! ### Claim C8: the center-opening scenario -/

theorem ai_place_marker_run {s : GameState} {sc : Int} {mv : Pos} {g2 : List Nat}
    (hw : s.winner = none)
    (hrun : minimaxTop s.spaces s.opponent = some (Except.ok (sc, mv), g2)) :
    ai_place_marker s = some (place_marker { s with spaces := g2 } mv) := by
  simp only [ai_place_marker, hw, hrun]

set_option maxHeartbeats 4000000 in
/-- Claim C8: from the empty grid with the automated player bound to O,
after the human plays X at the center and one automated turn runs, the
outcome is still unresolved and the automated move landed on the corner
(0,0), one of the four corners. -/
theorem scenario_center_corner :
    ai_place_marker (place_marker (initGame 2) (1, 1)) =
      some (⟨[2, 0, 0, 0, 1, 0, 0, 0, 0], none, 1, 2⟩ : GameState) ∧
      ((0, 0) ∈ ([(0, 0), (0, 2), (2, 0), (2, 2)] : List Pos)) := by
  have h1 : place_marker (initGame 2) (1, 1) =
      (⟨[0, 0, 0, 0, 1, 0, 0, 0, 0], none, 2, 2⟩ : GameState) := by decide
  have hTE : ∃ s mv, minimaxTop [0, 0, 0, 0, 1, 0, 0, 0, 0] 2 =
      some (Except.ok (s, mv), [0, 0, 0, 0, 1, 0, 0, 0, 0]) ∧
      selectBest none ((emptyCells [0, 0, 0, 0, 1, 0, 0, 0, 0]).map
        fun m => (-(auxScore (setCell [0, 0, 0, 0, 1, 0, 0, 0, 0] m 2) (oppOf 2)), m)) =
          some (s, mv) :=
    minimaxTop_eq (by decide) (Or.inr rfl) (by decide)
  obtain ⟨s, mv, hrun, hsel⟩ := hTE
  have hES : emptyCells [0, 0, 0, 0, 1, 0, 0, 0, 0] =
      [(0, 0), (0, 1), (0, 2), (1, 0), (1, 2), (2, 0), (2, 1), (2, 2)] := by decide
  have h00l : (0 : Int) ≤ childNeg [0, 0, 0, 0, 1, 0, 0, 0, 0] 2 (0, 0) :=
    ((childNeg_spec (by decide) (Or.inr rfl)).2 0).mp (by decide)
  have hu00 : (0 : Int) ≤ auxScore (setCell [0, 0, 0, 0, 1, 0, 0, 0, 0] (0, 0) 2) 1 :=
    ((auxScore_spec (by decide) (Or.inl rfl)).2.1 0).mp (by decide)
  have hu01 : (0 : Int) ≤ auxScore (setCell [0, 0, 0, 0, 1, 0, 0, 0, 0] (0, 1) 2) 1 :=
    ((auxScore_spec (by decide) (Or.inl rfl)).2.1 0).mp (by decide)
  have hu02 : (0 : Int) ≤ auxScore (setCell [0, 0, 0, 0, 1, 0, 0, 0, 0] (0, 2) 2) 1 :=
    ((auxScore_spec (by decide) (Or.inl rfl)).2.1 0).mp (by decide)
  have hu10 : (0 : Int) ≤ auxScore (setCell [0, 0, 0, 0, 1, 0, 0, 0, 0] (1, 0) 2) 1 :=
    ((auxScore_spec (by decide) (Or.inl rfl)).2.1 0).mp (by decide)
  have hu12 : (0 : Int) ≤ auxScore (setCell [0, 0, 0, 0, 1, 0, 0, 0, 0] (1, 2) 2) 1 :=
    ((auxScore_spec (by decide) (Or.inl rfl)).2.1 0).mp (by decide)
  have hu20 : (0 : Int) ≤ auxScore (setCell [0, 0, 0, 0, 1, 0, 0, 0, 0] (2, 0) 2) 1 :=
    ((auxScore_spec (by decide) (Or.inl rfl)).2.1 0).mp (by decide)
  have hu21 : (0 : Int) ≤ auxScore (setCell [0, 0, 0, 0, 1, 0, 0, 0, 0] (2, 1) 2) 1 :=
    ((auxScore_spec (by decide) (Or.inl rfl)).2.1 0).mp (by decide)
  have hu22 : (0 : Int) ≤ auxScore (setCell [0, 0, 0, 0, 1, 0, 0, 0, 0] (2, 2) 2) 1 :=
    ((auxScore_spec (by decide) (Or.inl rfl)).2.1 0).mp (by decide)
  have hup : ∀ x ∈ emptyCells [0, 0, 0, 0, 1, 0, 0, 0, 0],
      childNeg [0, 0, 0, 0, 1, 0, 0, 0, 0] 2 x ≤ 0 := by
    intro x hx
    rw [hES] at hx
    fin_cases hx
    · show -(auxScore (setCell [0, 0, 0, 0, 1, 0, 0, 0, 0] (0, 0) 2) 1) ≤ 0
      omega
    · show -(auxScore (setCell [0, 0, 0, 0, 1, 0, 0, 0, 0] (0, 1) 2) 1) ≤ 0
      omega
    · show -(auxScore (setCell [0, 0, 0, 0, 1, 0, 0, 0, 0] (0, 2) 2) 1) ≤ 0
      omega
    · show -(auxScore (setCell [0, 0, 0, 0, 1, 0, 0, 0, 0] (1, 0) 2) 1) ≤ 0
      omega
    · show -(auxScore (setCell [0, 0, 0, 0, 1, 0, 0, 0, 0] (1, 2) 2) 1) ≤ 0
      omega
    · show -(auxScore (setCell [0, 0, 0, 0, 1, 0, 0, 0, 0] (2, 0) 2) 1) ≤ 0
      omega
    · show -(auxScore (setCell [0, 0, 0, 0, 1, 0, 0, 0, 0] (2, 1) 2) 1) ≤ 0
      omega
    · show -(auxScore (setCell [0, 0, 0, 0, 1, 0, 0, 0, 0] (2, 2) 2) 1) ≤ 0
      omega
  obtain ⟨E1, E2, hEeq, hfmv, hlt, hle⟩ := selectBest_first _ _ _ _ hsel
  have hmvE : mv ∈ emptyCells [0, 0, 0, 0, 1, 0, 0, 0, 0] := by rw [hEeq]; simp
  have hsle : s ≤ 0 := by
    have := hup mv hmvE
    have h2 : childNeg [0, 0, 0, 0, 1, 0, 0, 0, 0] 2 mv = s := hfmv
    omega
  have hmv00 : mv = (0, 0) := by
    rw [hES] at hEeq
    cases E1 with
    | nil =>
      simp only [List.nil_append] at hEeq
      exact (List.cons.inj hEeq).1.symm
    | cons a E1t =>
      exfalso
      have ha : a = (0, 0) := by
        have hh := congrArg List.head? hEeq
        simpa using hh.symm
      have hmem : (0, 0) ∈ a :: E1t := by rw [ha]; simp
      have hc := hlt (0, 0) hmem
      have h2 : childNeg [0, 0, 0, 0, 1, 0, 0, 0, 0] 2 (0, 0) < s := hc
      omega
  subst hmv00
  have hai : ai_place_marker (⟨[0, 0, 0, 0, 1, 0, 0, 0, 0], none, 2, 2⟩ : GameState) =
      some (place_marker (⟨[0, 0, 0, 0, 1, 0, 0, 0, 0], none, 2, 2⟩ : GameState) (0, 0)) :=
    ai_place_marker_run rfl hrun
  have hfin : place_marker (⟨[0, 0, 0, 0, 1, 0, 0, 0, 0], none, 2, 2⟩ : GameState) (0, 0) =
      (⟨[2, 0, 0, 0, 1, 0, 0, 0, 0], none, 1, 2⟩ : GameState) := by decide
  refine ⟨?_, by decide⟩
  rw [h1, hai, hfin]

end TicTacToe
